import Mathlib

/-!
Verification of the change-detection and notification-decision core of the
`case-notifier` repository (Go).  The embedding models:

* JSON-like values decoded by Go's `encoding/json` into `interface{}`
  (`Value` below).  Go represents JSON `null` as the nil interface value, so
  the nil used by the code for "absent" and a JSON `null` field value are the
  same runtime value; `Value.vnull` plays both roles, exactly as in the code.
* `map[string]interface{}` documents as association lists
  (`Doc`), where the list order is the (randomized) iteration order Go picks
  when the code ranges over the map; a Go map never holds duplicate keys,
  which is the `NodupKeys` side condition.
* `reflect.DeepEqual` on such decoded values (`deepEqual`).
* `DetectChanges` from internal/uscis (the two range loops appending to the
  `changes` slice).
* the notification decision and orchestration of `checkAndNotifyCase`
  (cmd main, multi-case version) with the external collaborators
  (fetcher, email sender, snapshot store) abstracted as inputs.
-/

namespace CaseNotifier

/-- A JSON-like value as decoded by Go `encoding/json` into `interface{}`:
nil (JSON null), bool, float64 number (modelled as a rational — JSON has no
NaN/Inf), string, `[]interface{}`, `map[string]interface{}` (the field list
in some iteration order). -/
inductive Value where
  | vnull : Value
  | vbool (b : Bool) : Value
  | vnum (q : Rat) : Value
  | vstr (s : String) : Value
  | varr (elems : List Value) : Value
  | vobj (fields : List (String × Value)) : Value

/-- A status document: Go `map[string]interface{}`, as an association list in
iteration order. -/
abbrev Doc := List (String × Value)

/-- Go map indexing `m[key]` (with the `, exists` form): the value stored at
the key, if any.  On an association list coming from a Go map the key occurs
at most once, so first-match lookup is the map access. -/
def lookupField (k : String) : List (String × Value) → Option Value
  | [] => none
  | (k2, v) :: rest => if k2 = k then some v else lookupField k rest

/-- `true` exactly on Go's nil interface value / JSON null. -/
def Value.isNull : Value → Bool
  | .vnull => true
  | _ => false

/-- A Go map has no duplicate keys; an association list denotes a map only
when its keys are distinct. -/
def NodupKeys (d : List (String × Value)) : Prop := (d.map Prod.fst).Nodup

instance (d : List (String × Value)) : Decidable (NodupKeys d) := by
  unfold NodupKeys; infer_instance

mutual

/-- `reflect.DeepEqual` restricted to JSON-decoded values: scalars by `==`,
slices by length and element-wise deep equality in order, maps by equal
length together with every key of the first map being present in the second
with deeply equal value. -/
def deepEqual : Value → Value → Bool
  | .vnull, .vnull => true
  | .vbool a, .vbool b => a == b
  | .vnum a, .vnum b => a == b
  | .vstr a, .vstr b => a == b
  | .varr xs, .varr ys => deepEqualList xs ys
  | .vobj xs, .vobj ys => xs.length == ys.length && deepEqualFields xs ys
  | _, _ => false

/-- Element-wise deep equality of two slices (false on length mismatch). -/
def deepEqualList : List Value → List Value → Bool
  | [], [] => true
  | x :: xs, y :: ys => deepEqual x y && deepEqualList xs ys
  | _, _ => false

/-- Every entry of the first map is present in the second with a deeply
equal value. -/
def deepEqualFields : List (String × Value) → List (String × Value) → Bool
  | [], _ => true
  | (k, v) :: rest, ys => lookupDeepEqual k v ys && deepEqualFields rest ys

/-- The second map holds key `k` and its value is deeply equal to `v`. -/
def lookupDeepEqual (k : String) (v : Value) : List (String × Value) → Bool
  | [] => false
  | (k2, w) :: rest => if k2 = k then deepEqual v w else lookupDeepEqual k v rest

end

/-- One field change as produced by `DetectChanges`.  The Go struct stores
`interface{}` values whose nil (here `Value.vnull`) doubles as "absent". -/
structure Change where
  field : String
  oldValue : Value
  newValue : Value

/-- First range loop of `DetectChanges`: changed or new fields of `current`,
in `current`'s iteration order. -/
def detectNewAndChanged (previous : Doc) : Doc → List Change
  | [] => []
  | (key, newVal) :: rest =>
    match lookupField key previous with
    | none =>
      { field := key, oldValue := .vnull, newValue := newVal }
        :: detectNewAndChanged previous rest
    | some oldVal =>
      if deepEqual oldVal newVal then detectNewAndChanged previous rest
      else
        { field := key, oldValue := oldVal, newValue := newVal }
          :: detectNewAndChanged previous rest

/-- Second range loop of `DetectChanges`: fields of `previous` removed in
`current`, in `previous`'s iteration order. -/
def detectRemoved (current : Doc) : Doc → List Change
  | [] => []
  | (key, oldVal) :: rest =>
    match lookupField key current with
    | none =>
      { field := key, oldValue := oldVal, newValue := .vnull }
        :: detectRemoved current rest
    | some _ => detectRemoved current rest

/-- `uscis.DetectChanges(previous, current)`: nil previous map (no prior
snapshot) yields nil; otherwise the appends of the first loop followed by
the appends of the second loop. -/
def DetectChanges (previous : Option Doc) (current : Doc) : List Change :=
  match previous with
  | none => []
  | some prev => detectNewAndChanged prev current ++ detectRemoved current prev

/-- The kinds of email the orchestrator can send, one per call site of
`emailClient.SendEmail` in `checkAndNotifyCase` / `sendAuthFailureEmail`. -/
inductive EmailKind where
  | initialStatus : EmailKind
  | changeUpdate : EmailKind
  | authAlert : EmailKind
deriving DecidableEq, Repr

/-- The three-way notification decision taken by `checkAndNotifyCase` after a
successful fetch: the `if isFirstRun / else if hasChanges / else` branch. -/
inductive Decision where
  | notifyFirstRun : Decision
  | notifyUpdate : Decision
  | suppress : Decision
deriving DecidableEq, Repr

/-- The decision logic of `checkAndNotifyCase` in isolation:
`isFirstRun := previousState == nil`, `hasChanges := len(changes) > 0`,
then `if isFirstRun { initial } else if hasChanges { update } else { skip }`. -/
def decidePolicy (isFirstRun : Bool) (changes : List Change) : Decision :=
  if isFirstRun then .notifyFirstRun
  else if changes.length > 0 then .notifyUpdate
  else .suppress

/-- Outcome of `fetcher.FetchCaseStatus`: either a document, or an error that
is an `*uscis.ErrAuthenticationFailed` or any other error. -/
inductive FetchError where
  | authenticationFailed (msg : String) : FetchError
  | other (msg : String) : FetchError
deriving DecidableEq, Repr

/-- The error value returned by `checkAndNotifyCase`, by return site. -/
inductive CheckError where
  | authFailed : CheckError
  | fetchFailed : CheckError
  | sendInitialFailed : CheckError
  | sendChangeFailed : CheckError
deriving DecidableEq, Repr

/-- Observable effects of one `checkAndNotifyCase` run: which emails were
attempted (in order), the document passed to `stateStorage.Save` if `Save`
was called at all, and the returned error.  A failing `Save` is only logged
by the code, so the `Save` call itself is the store-write event. -/
structure CheckResult where
  emails : List EmailKind
  savedDoc : Option Doc
  err : Option CheckError

/-- `checkAndNotifyCase` (multi-case main), with the collaborators abstracted:
`previousState` is what `stateStorage.Load` returned (nil on a missing or
unreadable snapshot), `fetchResult` is the outcome of
`fetcher.FetchCaseStatus`, and `sendOk k` tells whether the `SendEmail` call
of kind `k` would succeed.  Mirrors the source order: load, fetch (early
return on error, with an auth-alert email on auth failure), detect changes,
send the due email (early return on send failure), then
`if isFirstRun || hasChanges { stateStorage.Save(status) }`. -/
def checkAndNotifyCase (previousState : Option Doc)
    (fetchResult : Except FetchError Doc)
    (sendOk : EmailKind → Bool) : CheckResult :=
  match fetchResult with
  | .error (.authenticationFailed _) =>
    -- sendAuthFailureEmail: its own failure is only logged
    { emails := [.authAlert], savedDoc := none, err := some .authFailed }
  | .error (.other _) =>
    { emails := [], savedDoc := none, err := some .fetchFailed }
  | .ok status =>
    let changes := DetectChanges previousState status
    let isFirstRun := previousState.isNone
    let hasChanges := changes.length > 0
    if isFirstRun then
      if sendOk .initialStatus then
        -- isFirstRun || hasChanges holds, so Save(status) is called
        { emails := [.initialStatus], savedDoc := some status, err := none }
      else
        -- early return: the conditional Save below is never reached
        { emails := [.initialStatus], savedDoc := none,
          err := some .sendInitialFailed }
    else if hasChanges then
      if sendOk .changeUpdate then
        { emails := [.changeUpdate], savedDoc := some status, err := none }
      else
        { emails := [.changeUpdate], savedDoc := none,
          err := some .sendChangeFailed }
    else
      -- no changes: no email, and isFirstRun || hasChanges is false
      { emails := [], savedDoc := none, err := none }

/-- One poll cycle over the configured case list (the
`for _, caseID := range cfg.CaseIDs` loop of the multi-case main): every
case is checked with its own collaborator outcomes; an error is logged and
the loop continues. -/
def pollOnce (caseIDs : List String)
    (previousState : String → Option Doc)
    (fetchResult : String → Except FetchError Doc)
    (sendOk : String → EmailKind → Bool) : List (String × CheckResult) :=
  match caseIDs with
  | [] => []
  | caseID :: rest =>
    (caseID,
      checkAndNotifyCase (previousState caseID) (fetchResult caseID)
        (sendOk caseID))
      :: pollOnce rest previousState fetchResult sendOk

/-- No field value of the document is JSON null (Go nil). -/
def NullFree (d : Doc) : Prop := ∀ q ∈ d, q.2.isNull = false

instance (d : Doc) : Decidable (NullFree d) := by
  unfold NullFree; infer_instance

/-- The addition/modification decision of the first `DetectChanges` loop for
one entry of `current`. -/
def newChangeFun (previous : Doc) (q : String × Value) : Option Change :=
  match lookupField q.1 previous with
  | none => some { field := q.1, oldValue := .vnull, newValue := q.2 }
  | some oldVal =>
    if deepEqual oldVal q.2 then none
    else some { field := q.1, oldValue := oldVal, newValue := q.2 }

/-- The removal decision of the second `DetectChanges` loop for one entry of
`previous`. -/
def removedChangeFun (current : Doc) (q : String × Value) : Option Change :=
  match lookupField q.1 current with
  | none => some { field := q.1, oldValue := q.2, newValue := .vnull }
  | some _ => none

/-- A well-formed JSON-decoded value: every object layer holds each key at
most once, as a Go map always does. -/
inductive WF : Value → Prop where
  | vnull : WF .vnull
  | vbool (b : Bool) : WF (.vbool b)
  | vnum (q : Rat) : WF (.vnum q)
  | vstr (s : String) : WF (.vstr s)
  | varr {elems : List Value} : (∀ v ∈ elems, WF v) → WF (.varr elems)
  | vobj {fields : List (String × Value)} :
      (fields.map Prod.fst).Nodup → (∀ q ∈ fields, WF q.2) →
      WF (.vobj fields)

/-- Deep structural equality as the specification words it: scalars by
value, arrays pairwise in order, objects by equal key sets with deeply
equal values at each matched key irrespective of insertion order.
Spec-side definition, to be compared against the code's `deepEqual`. -/
inductive SpecEqual : Value → Value → Prop where
  | vnull : SpecEqual .vnull .vnull
  | vbool (b : Bool) : SpecEqual (.vbool b) (.vbool b)
  | vnum (q : Rat) : SpecEqual (.vnum q) (.vnum q)
  | vstr (s : String) : SpecEqual (.vstr s) (.vstr s)
  | varr {xs ys : List Value} : List.Forall₂ SpecEqual xs ys →
      SpecEqual (.varr xs) (.varr ys)
  | vobj {xs ys : List (String × Value)} :
      (∀ k, (lookupField k xs).isSome ↔ (lookupField k ys).isSome) →
      (∀ k v w, lookupField k xs = some v → lookupField k ys = some w →
        SpecEqual v w) →
      SpecEqual (.vobj xs) (.vobj ys)

/-! ### Shared lemmas -/

theorem lookupField_mem {k : String} {v : Value}
    {xs : List (String × Value)} (h : lookupField k xs = some v) :
    (k, v) ∈ xs := by
  induction xs with
  | nil => simp [lookupField] at h
  | cons q rest ih =>
    obtain ⟨k2, w⟩ := q
    by_cases hk : k2 = k
    · subst hk
      simp [lookupField] at h
      simp [h]
    · rw [lookupField, if_neg hk] at h
      exact List.mem_cons_of_mem _ (ih h)

theorem lookupField_eq_none {k : String} {xs : List (String × Value)} :
    lookupField k xs = none ↔ k ∉ xs.map Prod.fst := by
  induction xs with
  | nil => simp [lookupField]
  | cons q rest ih =>
    obtain ⟨k2, w⟩ := q
    by_cases hk : k2 = k
    · subst hk; simp [lookupField]
    · rw [lookupField, if_neg hk]
      simp only [List.map_cons, List.mem_cons, ih]
      constructor
      · intro h h2
        rcases h2 with h2 | h2
        · exact hk h2.symm
        · exact h h2
      · intro h h2
        exact h (Or.inr h2)

theorem lookupField_of_nodup_mem {k : String} {v : Value}
    {xs : List (String × Value)} (hnd : NodupKeys xs) (h : (k, v) ∈ xs) :
    lookupField k xs = some v := by
  induction xs with
  | nil => simp at h
  | cons q rest ih =>
    obtain ⟨k2, w⟩ := q
    rw [NodupKeys, List.map_cons, List.nodup_cons] at hnd
    rcases List.mem_cons.mp h with h1 | h1
    · cases h1
      simp [lookupField]
    · have hk : k2 ≠ k := by
        intro hk
        subst hk
        exact hnd.1 (List.mem_map.mpr ⟨(k2, v), h1, rfl⟩)
      rw [lookupField, if_neg hk]
      exact ih hnd.2 h1

/-- Every `lookupField` on a key-permuted association list with distinct keys
agrees. -/
theorem lookupField_perm {xs ys : List (String × Value)}
    (hnd : NodupKeys xs) (hperm : xs.Perm ys) (k : String) :
    lookupField k xs = lookupField k ys := by
  induction hperm with
  | nil => rfl
  | cons q h2 ih =>
    obtain ⟨k2, w⟩ := q
    rw [NodupKeys, List.map_cons, List.nodup_cons] at hnd
    by_cases hk : k2 = k
    · subst hk; simp [lookupField]
    · rw [lookupField, lookupField, if_neg hk, if_neg hk]
      exact ih hnd.2
  | swap q1 q2 l =>
    obtain ⟨ka, va⟩ := q1
    obtain ⟨kb, vb⟩ := q2
    rw [NodupKeys, List.map_cons, List.map_cons, List.nodup_cons,
      List.nodup_cons] at hnd
    have hab : kb ≠ ka := by
      intro h
      exact hnd.1 (h ▸ List.mem_cons_self _ _)
    by_cases hka : kb = k
    · subst hka
      simp [lookupField, Ne.symm hab]
    · by_cases hkb : ka = k
      · subst hkb
        simp [lookupField, hka]
      · simp [lookupField, hka, hkb]
  | trans h1 h2 ih1 ih2 =>
    have hnd2 : NodupKeys _ := (h1.map Prod.fst).nodup hnd
    rw [ih1 hnd, ih2 hnd2]

theorem newChangeFun_eq_none_lookup {previous : Doc} {q : String × Value}
    (h : lookupField q.1 previous = none) :
    newChangeFun previous q =
      some { field := q.1, oldValue := .vnull, newValue := q.2 } := by
  unfold newChangeFun
  rw [h]

theorem newChangeFun_eq_some_lookup {previous : Doc} {q : String × Value}
    {o : Value} (h : lookupField q.1 previous = some o) :
    newChangeFun previous q =
      if deepEqual o q.2 then none
      else some { field := q.1, oldValue := o, newValue := q.2 } := by
  unfold newChangeFun
  rw [h]

theorem removedChangeFun_eq_none_lookup {current : Doc} {q : String × Value}
    (h : lookupField q.1 current = none) :
    removedChangeFun current q =
      some { field := q.1, oldValue := q.2, newValue := .vnull } := by
  unfold removedChangeFun
  rw [h]

theorem removedChangeFun_eq_some_lookup {current : Doc} {q : String × Value}
    {o : Value} (h : lookupField q.1 current = some o) :
    removedChangeFun current q = none := by
  unfold removedChangeFun
  rw [h]

/-- `DetectChanges` with the empty (present) previous map reports every
entry of the document as an addition, in iteration order. -/
theorem detectChanges_empty_prev (d : Doc) :
    DetectChanges (some []) d =
      d.map (fun q =>
        ({ field := q.1, oldValue := .vnull, newValue := q.2 } : Change)) := by
  have h : ∀ e : Doc, detectNewAndChanged [] e =
      e.map (fun q =>
        ({ field := q.1, oldValue := .vnull, newValue := q.2 } : Change)) := by
    intro e
    induction e with
    | nil => rfl
    | cons q rest ih =>
      obtain ⟨k, v⟩ := q
      rw [detectNewAndChanged]
      have h2 : lookupField k ([] : Doc) = none := rfl
      rw [h2, List.map_cons, ih]
  rw [DetectChanges]
  have h1 : detectRemoved d [] = [] := rfl
  rw [h1, List.append_nil, h d]

theorem detectNewAndChanged_eq_filterMap (previous current : Doc) :
    detectNewAndChanged previous current =
      current.filterMap (newChangeFun previous) := by
  induction current with
  | nil => rfl
  | cons q rest ih =>
    obtain ⟨k, v⟩ := q
    rw [detectNewAndChanged, List.filterMap_cons]
    cases h : lookupField k previous with
    | none => simp [newChangeFun, h, ih]
    | some o =>
      by_cases hde : deepEqual o v = true
      · simp [newChangeFun, h, hde, ih]
      · simp only [Bool.not_eq_true] at hde
        simp [newChangeFun, h, hde, ih]

theorem detectRemoved_eq_filterMap (current previous : Doc) :
    detectRemoved current previous =
      previous.filterMap (removedChangeFun current) := by
  induction previous with
  | nil => rfl
  | cons q rest ih =>
    obtain ⟨k, v⟩ := q
    rw [detectRemoved, List.filterMap_cons]
    cases h : lookupField k current with
    | none => simp [removedChangeFun, h, ih]
    | some o => simp [removedChangeFun, h, ih]

theorem field_mem_of_mem_detectNewAndChanged {previous current : Doc}
    {ch : Change} (h : ch ∈ detectNewAndChanged previous current) :
    ch.field ∈ current.map Prod.fst := by
  rw [detectNewAndChanged_eq_filterMap] at h
  rcases List.mem_filterMap.mp h with ⟨q, hq, hf⟩
  have : ch.field = q.1 := by
    unfold newChangeFun at hf
    rcases hl : lookupField q.1 previous with _ | o
    · rw [hl] at hf
      cases hf
      rfl
    · rw [hl] at hf
      by_cases hde : deepEqual o q.2 = true
      · simp [hde] at hf
      · simp only [Bool.not_eq_true] at hde
        simp [hde] at hf
        rw [← hf]
  rw [this]
  exact List.mem_map.mpr ⟨q, hq, rfl⟩

theorem field_mem_of_mem_detectRemoved {current previous : Doc}
    {ch : Change} (h : ch ∈ detectRemoved current previous) :
    ch.field ∈ previous.map Prod.fst := by
  rw [detectRemoved_eq_filterMap] at h
  rcases List.mem_filterMap.mp h with ⟨q, hq, hf⟩
  have : ch.field = q.1 := by
    unfold removedChangeFun at hf
    rcases hl : lookupField q.1 current with _ | o
    · rw [hl] at hf
      cases hf
      rfl
    · rw [hl] at hf
      cases hf
  rw [this]
  exact List.mem_map.mpr ⟨q, hq, rfl⟩

theorem filter_field_eq_nil {l : List Change} {k : String}
    (h : ∀ ch ∈ l, ch.field ≠ k) :
    l.filter (fun ch => ch.field == k) = [] := by
  rw [List.filter_eq_nil_iff]
  intro ch hch
  simp [h ch hch]

/-- What the first `DetectChanges` loop reports about one key: nothing when
the key is not in `current`; an addition when it is new; a modification when
the values deeply differ; nothing when they deeply agree — and exactly one
record, since a Go map holds each key once. -/
theorem detectNewAndChanged_filter (previous : Doc) {current : Doc}
    (hnd : NodupKeys current) (k : String) :
    (detectNewAndChanged previous current).filter
        (fun ch => ch.field == k) =
      match lookupField k current with
      | none => []
      | some v =>
        match lookupField k previous with
        | none => [{ field := k, oldValue := .vnull, newValue := v }]
        | some o =>
          if deepEqual o v then []
          else [{ field := k, oldValue := o, newValue := v }] := by
  induction current with
  | nil => rfl
  | cons q rest ih =>
    obtain ⟨k1, v1⟩ := q
    rw [NodupKeys, List.map_cons, List.nodup_cons] at hnd
    by_cases hk : k1 = k
    · subst hk
      have htail : (detectNewAndChanged previous rest).filter
          (fun ch => ch.field == k1) = [] := by
        apply filter_field_eq_nil
        intro ch hch hcf
        exact hnd.1 (hcf ▸ field_mem_of_mem_detectNewAndChanged hch)
      rw [detectNewAndChanged]
      cases hl : lookupField k1 previous with
      | none => simp [lookupField, List.filter_cons, htail, hl]
      | some o =>
        cases hde : deepEqual o v1 with
        | false => simp [lookupField, List.filter_cons, htail, hl, hde]
        | true => simp [lookupField, htail, hl, hde]
    · rw [detectNewAndChanged]
      have hbk : (k1 == k) = false := by simp [hk]
      have hrest := ih hnd.2
      cases hl : lookupField k1 previous with
      | none => simp [List.filter_cons, hbk, lookupField, hk, hrest]
      | some o =>
        cases hde : deepEqual o v1 with
        | false => simp [List.filter_cons, hbk, hde, lookupField, hk, hrest]
        | true => simp [hde, lookupField, hk, hrest]

/-- What the second `DetectChanges` loop reports about one key: exactly one
removal record when the key is in `previous` but not `current`, nothing
otherwise. -/
theorem detectRemoved_filter (current : Doc) {previous : Doc}
    (hnd : NodupKeys previous) (k : String) :
    (detectRemoved current previous).filter (fun ch => ch.field == k) =
      match lookupField k previous with
      | none => []
      | some o =>
        match lookupField k current with
        | none => [{ field := k, oldValue := o, newValue := .vnull }]
        | some _ => [] := by
  induction previous with
  | nil => rfl
  | cons q rest ih =>
    obtain ⟨k1, v1⟩ := q
    rw [NodupKeys, List.map_cons, List.nodup_cons] at hnd
    by_cases hk : k1 = k
    · subst hk
      have htail : (detectRemoved current rest).filter
          (fun ch => ch.field == k1) = [] := by
        apply filter_field_eq_nil
        intro ch hch hcf
        exact hnd.1 (hcf ▸ field_mem_of_mem_detectRemoved hch)
      rw [detectRemoved]
      cases hl : lookupField k1 current with
      | none => simp [lookupField, List.filter_cons, htail, hl]
      | some o => simp [lookupField, htail, hl]
    · rw [detectRemoved]
      have hbk : (k1 == k) = false := by simp [hk]
      have hrest := ih hnd.2
      cases hl : lookupField k1 current with
      | none => simp [List.filter_cons, hbk, lookupField, hk, hrest]
      | some o => simp [lookupField, hk, hrest]

/-- Keys reported by the first loop, in order: the keys of `current`, in
`current`'s iteration order, restricted to added or deeply-changed fields. -/
theorem detectNewAndChanged_map_field (previous current : Doc) :
    (detectNewAndChanged previous current).map Change.field =
      (current.filter fun q =>
        match lookupField q.1 previous with
        | none => true
        | some o => !deepEqual o q.2).map Prod.fst := by
  induction current with
  | nil => rfl
  | cons q rest ih =>
    obtain ⟨k, v⟩ := q
    rw [detectNewAndChanged, List.filter_cons]
    cases h : lookupField k previous with
    | none => simpa [h] using ih
    | some o => cases hde : deepEqual o v <;> simp [h, hde, ih]

/-- Keys reported by the second loop, in order: the keys of `previous`, in
`previous`'s iteration order, restricted to fields absent from `current`. -/
theorem detectRemoved_map_field (current previous : Doc) :
    (detectRemoved current previous).map Change.field =
      (previous.filter fun q =>
        (lookupField q.1 current).isNone).map Prod.fst := by
  induction previous with
  | nil => rfl
  | cons q rest ih =>
    obtain ⟨k, v⟩ := q
    rw [detectRemoved, List.filter_cons]
    cases h : lookupField k current with
    | none => simpa [h] using ih
    | some o => simp [h, ih]

theorem checkAndNotifyCase_ok (prev : Option Doc) (status : Doc)
    (sendOk : EmailKind → Bool) :
    checkAndNotifyCase prev (.ok status) sendOk =
      if prev.isNone then
        if sendOk .initialStatus then
          ⟨[.initialStatus], some status, none⟩
        else ⟨[.initialStatus], none, some .sendInitialFailed⟩
      else if (DetectChanges prev status).length > 0 then
        if sendOk .changeUpdate then ⟨[.changeUpdate], some status, none⟩
        else ⟨[.changeUpdate], none, some .sendChangeFailed⟩
      else ⟨[], none, none⟩ := rfl

theorem pollOnce_map_fst (caseIDs : List String)
    (prev : String → Option Doc) (fetch : String → Except FetchError Doc)
    (send : String → EmailKind → Bool) :
    (pollOnce caseIDs prev fetch send).map Prod.fst = caseIDs := by
  induction caseIDs with
  | nil => rfl
  | cons c rest ih => simpa [pollOnce] using ih

theorem mem_pollOnce (caseIDs : List String)
    (prev : String → Option Doc) (fetch : String → Except FetchError Doc)
    (send : String → EmailKind → Bool) (p : String × CheckResult)
    (hp : p ∈ pollOnce caseIDs prev fetch send) :
    p.2 = checkAndNotifyCase (prev p.1) (fetch p.1) (send p.1) := by
  induction caseIDs with
  | nil => simp [pollOnce] at hp
  | cons c rest ih =>
    simp only [pollOnce, List.mem_cons] at hp
    rcases hp with h | h
    · subst h; rfl
    · exact ih h

/-! ### Claims -/

/-- Claim C2: for every document d, `DetectChanges` with an absent (nil)
previous snapshot returns the empty change list, regardless of d. -/
theorem C2_first_observation_empty_changeset :
    ∀ d : Doc, DetectChanges none d = [] := fun _ => rfl

/-- Claim C3: the notification decision is total and exclusive; first
observation always notifies FirstRun; Suppress exactly when not first and
the change set is empty; Update exactly when not first and non-empty.  The
last conjunct ties the decision to the emails `checkAndNotifyCase` actually
attempts after a successful fetch. -/
theorem C3_policy_totality :
    ∀ (isFirstRun : Bool) (changes : List Change),
      (decidePolicy isFirstRun changes = .notifyFirstRun ↔
        isFirstRun = true) ∧
      (decidePolicy isFirstRun changes = .suppress ↔
        isFirstRun = false ∧ changes = []) ∧
      (decidePolicy isFirstRun changes = .notifyUpdate ↔
        isFirstRun = false ∧ changes ≠ []) ∧
      (∀ (prev : Option Doc) (status : Doc) (sendOk : EmailKind → Bool),
        (checkAndNotifyCase prev (.ok status) sendOk).emails =
          match decidePolicy prev.isNone (DetectChanges prev status) with
          | .notifyFirstRun => [EmailKind.initialStatus]
          | .notifyUpdate => [EmailKind.changeUpdate]
          | .suppress => []) := by
  intro isFirstRun changes
  refine ⟨?_, ?_, ?_, ?_⟩
  · cases isFirstRun
    · simp only [decidePolicy, Bool.false_eq_true, if_false]
      split <;> simp
    · simp [decidePolicy]
  · cases isFirstRun <;> cases changes <;> simp [decidePolicy]
  · cases isFirstRun <;> cases changes <;> simp [decidePolicy]
  · intro prev status sendOk
    cases prev with
    | none =>
      cases h : sendOk .initialStatus <;>
        simp [checkAndNotifyCase, decidePolicy, h]
    | some pdoc =>
      simp only [checkAndNotifyCase, decidePolicy, Option.isNone_some,
        if_false, Bool.false_eq_true]
      cases hc : DetectChanges (some pdoc) status with
      | nil => simp
      | cons c cs => cases h : sendOk .changeUpdate <;> simp [h]

/-- Claim C4, counterexample: fetch succeeds, the policy decides
Notify(FirstRun), the send is attempted and fails — and `Save` is never
called, so the new snapshot is not persisted; the case check instead
returns an error.  This refutes "the new snapshot is persisted even when
sending the notification email fails" for the multi-case
`checkAndNotifyCase`, whose conditional save sits after the early-returning
send. -/
theorem C4_counterexample_send_failure_skips_save :
    (checkAndNotifyCase none (.ok [("status", .vstr "Received")])
        (fun _ => false)).savedDoc = none ∧
    (checkAndNotifyCase none (.ok [("status", .vstr "Received")])
        (fun _ => false)).emails = [.initialStatus] ∧
    (checkAndNotifyCase none (.ok [("status", .vstr "Received")])
        (fun _ => false)).err = some .sendInitialFailed ∧
    decidePolicy true (DetectChanges none [("status", .vstr "Received")]) =
      .notifyFirstRun :=
  ⟨rfl, rfl, rfl, rfl⟩

/-- Claim C4 as amended: `checkAndNotifyCase` calls `Save` with the newly
fetched document exactly when the fetch succeeded, a notification was due
(first observation, or a non-empty change set), and that notification's
send succeeded.  In particular a send failure does prevent the save and
aborts the case check with an error. -/
theorem C4_amended_save_iff_send_success :
    ∀ (prev : Option Doc) (fetchResult : Except FetchError Doc)
      (sendOk : EmailKind → Bool) (d : Doc),
      (checkAndNotifyCase prev fetchResult sendOk).savedDoc = some d ↔
        fetchResult = .ok d ∧
          ((prev = none ∧ sendOk .initialStatus = true) ∨
            (prev ≠ none ∧ DetectChanges prev d ≠ [] ∧
              sendOk .changeUpdate = true)) := by
  intro prev fetchResult sendOk d
  match fetchResult with
  | .error (.authenticationFailed m) => simp [checkAndNotifyCase]
  | .error (.other m) => simp [checkAndNotifyCase]
  | .ok status =>
    cases prev with
    | none =>
      cases h : sendOk .initialStatus <;> simp [checkAndNotifyCase, h]
    | some pdoc =>
      rw [checkAndNotifyCase_ok]
      simp only [Option.isNone_some, Bool.false_eq_true, if_false]
      by_cases hlen : (DetectChanges (some pdoc) status).length > 0
      · rw [if_pos hlen]
        cases h : sendOk .changeUpdate
        · rw [if_neg (by simp [h])]
          constructor
          · intro h2; cases h2
          · rintro ⟨he, ⟨hn, _⟩ | ⟨_, _, ht⟩⟩
            · cases hn
            · exact absurd ht (by simp)
        · rw [if_pos (by simp [h])]
          constructor
          · intro h2
            injection h2 with h3
            subst h3
            exact ⟨rfl, Or.inr ⟨by simp, List.length_pos.mp hlen, rfl⟩⟩
          · rintro ⟨he, _⟩
            injection he with h3
            rw [h3]
      · rw [if_neg hlen]
        constructor
        · intro h2; cases h2
        · rintro ⟨he, ⟨hn, _⟩ | ⟨_, hne, _⟩⟩
          · cases hn
          · injection he with h3
            subst h3
            exact absurd (List.length_eq_zero.mp
              (Nat.eq_zero_of_not_pos hlen)) hne

/-- Claim C6: per-case isolation of one poll cycle — when case i's fetch
fails (of any kind) and every other case's pipeline succeeds on its own,
`pollOnce` still checks every configured case, and every case other than i
completes without error. -/
theorem C6_pipeline_isolation :
    ∀ (caseIDs : List String) (prev : String → Option Doc)
      (fetch : String → Except FetchError Doc)
      (send : String → EmailKind → Bool) (i : String) (e : FetchError),
      fetch i = .error e →
      (∀ j, j ≠ i →
        (checkAndNotifyCase (prev j) (fetch j) (send j)).err = none) →
      (pollOnce caseIDs prev fetch send).map Prod.fst = caseIDs ∧
        ∀ p ∈ pollOnce caseIDs prev fetch send, p.1 ≠ i →
          p.2.err = none := by
  intro caseIDs prev fetch send i e hfail hrest
  refine ⟨pollOnce_map_fst caseIDs prev fetch send, ?_⟩
  intro p hp hne
  rw [mem_pollOnce caseIDs prev fetch send p hp]
  exact hrest p.1 hne

/-- Witness for C6 at a concrete three-case cycle where case B's fetch
fails with an authentication error and cases A and C succeed. -/
theorem C6_pipeline_isolation_witness :
    (pollOnce ["A", "B", "C"] (fun _ => none)
        (fun j => if j = "B" then .error (.authenticationFailed "401")
          else .ok [("status", .vstr "Received")])
        (fun _ _ => true)).map Prod.fst = ["A", "B", "C"] ∧
      ∀ p ∈ pollOnce ["A", "B", "C"] (fun _ => none)
        (fun j => if j = "B" then .error (.authenticationFailed "401")
          else .ok [("status", .vstr "Received")])
        (fun _ _ => true), p.1 ≠ "B" → p.2.err = none := by
  refine C6_pipeline_isolation ["A", "B", "C"] (fun _ => none)
    (fun j => if j = "B" then .error (.authenticationFailed "401")
      else .ok [("status", .vstr "Received")])
    (fun _ _ => true) "B" (.authenticationFailed "401") (by simp) ?_
  intro j hj
  simp [checkAndNotifyCase, hj, DetectChanges]

/-- Claim C7: on any fetch error — authentication failure or any other
error — `checkAndNotifyCase` never calls `Save`, so the stored previous
snapshot is untouched for that case in that cycle. -/
theorem C7_fetch_error_leaves_store_unchanged :
    ∀ (prev : Option Doc) (sendOk : EmailKind → Bool) (e : FetchError),
      (checkAndNotifyCase prev (.error e) sendOk).savedDoc = none := by
  intro prev sendOk e
  cases e <;> rfl

/-- Structural induction over `Value` exposing the nested lists through
membership. -/
theorem Value.inductionOn (P : Value → Prop)
    (hnull : P .vnull) (hbool : ∀ b, P (.vbool b))
    (hnum : ∀ q, P (.vnum q)) (hstr : ∀ s, P (.vstr s))
    (harr : ∀ elems, (∀ v ∈ elems, P v) → P (.varr elems))
    (hobj : ∀ fields, (∀ q ∈ fields, P q.2) → P (.vobj fields)) :
    ∀ v, P v := by
  have key : ∀ n (v : Value), sizeOf v ≤ n → P v := by
    intro n
    induction n with
    | zero =>
      intro v hv
      exact absurd hv (by cases v <;> simp)
    | succ n ih =>
      intro v hv
      cases v with
      | vnull => exact hnull
      | vbool b => exact hbool b
      | vnum q => exact hnum q
      | vstr s => exact hstr s
      | varr elems =>
        refine harr elems fun w hw => ih w ?_
        have h1 := List.sizeOf_lt_of_mem hw
        have h2 : sizeOf (Value.varr elems) = 1 + sizeOf elems := by simp
        omega
      | vobj fields =>
        refine hobj fields fun q hq => ih q.2 ?_
        have h1 := List.sizeOf_lt_of_mem hq
        have h2 : sizeOf (Value.vobj fields) = 1 + sizeOf fields := by simp
        have h3 : sizeOf q.2 < sizeOf q := by
          obtain ⟨s, w⟩ := q
          simp
        omega
  exact fun v => key (sizeOf v) v (Nat.le_refl _)

theorem lookupField_isSome_iff {k : String} {xs : List (String × Value)} :
    (lookupField k xs).isSome = true ↔ k ∈ xs.map Prod.fst := by
  induction xs with
  | nil => simp [lookupField]
  | cons q rest ih =>
    obtain ⟨k2, w⟩ := q
    by_cases hk : k2 = k
    · subst hk; simp [lookupField]
    · simp [lookupField, hk, ih, Ne.symm hk]

theorem lookupDeepEqual_eq (k : String) (v : Value)
    (ys : List (String × Value)) :
    lookupDeepEqual k v ys =
      match lookupField k ys with
      | none => false
      | some w => deepEqual v w := by
  induction ys with
  | nil => simp [lookupDeepEqual, lookupField]
  | cons q rest ih =>
    obtain ⟨k2, w⟩ := q
    by_cases hk : k2 = k
    · subst hk; simp [lookupDeepEqual, lookupField]
    · simp [lookupDeepEqual, lookupField, hk, ih]

theorem deepEqualFields_iff {xs ys : List (String × Value)} :
    deepEqualFields xs ys = true ↔
      ∀ q ∈ xs, lookupDeepEqual q.1 q.2 ys = true := by
  induction xs with
  | nil => simp [deepEqualFields]
  | cons q rest ih =>
    obtain ⟨k, v⟩ := q
    simp [deepEqualFields, ih]

theorem deepEqualList_iff {xs ys : List Value} :
    deepEqualList xs ys = true ↔
      List.Forall₂ (fun a b => deepEqual a b = true) xs ys := by
  induction xs generalizing ys with
  | nil => cases ys <;> simp [deepEqualList]
  | cons x rest ih =>
    cases ys with
    | nil => simp [deepEqualList]
    | cons y ys2 => simp [deepEqualList, ih]

theorem forall₂_deepEqual_iff_specEqual :
    ∀ (xs ys : List Value),
      (∀ v ∈ xs, ∀ w, WF v → WF w →
        (deepEqual v w = true ↔ SpecEqual v w)) →
      (∀ v ∈ xs, WF v) → (∀ w ∈ ys, WF w) →
      (List.Forall₂ (fun a b => deepEqual a b = true) xs ys ↔
        List.Forall₂ SpecEqual xs ys) := by
  intro xs
  induction xs with
  | nil =>
    intro ys _ _ _
    cases ys <;> simp
  | cons x rest ih =>
    intro ys hih hwx hwy
    cases ys with
    | nil => simp
    | cons y ys2 =>
      simp only [List.forall₂_cons]
      rw [hih x (by simp) y (hwx x (by simp)) (hwy y (by simp)),
        ih ys2 (fun v hv => hih v (by simp [hv]))
          (fun v hv => hwx v (by simp [hv]))
          (fun w hw => hwy w (by simp [hw]))]

/-- Claim C8: the code's `deepEqual` (reflect.DeepEqual on JSON-decoded
values) returns true exactly on deep structural equality: scalars by value
equality; arrays by equal length and pairwise deep equality in order
(`List.Forall₂`); objects by equal key sets with deeply equal values at
each matched key, irrespective of key insertion order.  Stated for
well-formed values (each object layer holds a key at most once, as Go maps
guarantee). -/
theorem C8_deepEqual_iff_specEqual :
    ∀ a b : Value, WF a → WF b → (deepEqual a b = true ↔ SpecEqual a b) := by
  intro a
  induction a using Value.inductionOn with
  | hnull =>
    intro b _ _
    cases b with
    | vnull => simpa [deepEqual] using SpecEqual.vnull
    | vbool b2 =>
      exact ⟨fun h => by simp [deepEqual] at h, fun h => nomatch h⟩
    | vnum q2 =>
      exact ⟨fun h => by simp [deepEqual] at h, fun h => nomatch h⟩
    | vstr s2 =>
      exact ⟨fun h => by simp [deepEqual] at h, fun h => nomatch h⟩
    | varr ys =>
      exact ⟨fun h => by simp [deepEqual] at h, fun h => nomatch h⟩
    | vobj ys =>
      exact ⟨fun h => by simp [deepEqual] at h, fun h => nomatch h⟩
  | hbool b1 =>
    intro b _ _
    cases b with
    | vbool b2 =>
      rw [show deepEqual (.vbool b1) (.vbool b2) = (b1 == b2) from by
        simp [deepEqual], beq_iff_eq]
      constructor
      · rintro rfl
        exact SpecEqual.vbool b1
      · rintro h
        cases h
        rfl
    | vnull =>
      exact ⟨fun h => by simp [deepEqual] at h, fun h => nomatch h⟩
    | vnum q2 =>
      exact ⟨fun h => by simp [deepEqual] at h, fun h => nomatch h⟩
    | vstr s2 =>
      exact ⟨fun h => by simp [deepEqual] at h, fun h => nomatch h⟩
    | varr ys =>
      exact ⟨fun h => by simp [deepEqual] at h, fun h => nomatch h⟩
    | vobj ys =>
      exact ⟨fun h => by simp [deepEqual] at h, fun h => nomatch h⟩
  | hnum q1 =>
    intro b _ _
    cases b with
    | vnum q2 =>
      rw [show deepEqual (.vnum q1) (.vnum q2) = (q1 == q2) from by
        simp [deepEqual], beq_iff_eq]
      constructor
      · rintro rfl
        exact SpecEqual.vnum q1
      · rintro h
        cases h
        rfl
    | vnull =>
      exact ⟨fun h => by simp [deepEqual] at h, fun h => nomatch h⟩
    | vbool b2 =>
      exact ⟨fun h => by simp [deepEqual] at h, fun h => nomatch h⟩
    | vstr s2 =>
      exact ⟨fun h => by simp [deepEqual] at h, fun h => nomatch h⟩
    | varr ys =>
      exact ⟨fun h => by simp [deepEqual] at h, fun h => nomatch h⟩
    | vobj ys =>
      exact ⟨fun h => by simp [deepEqual] at h, fun h => nomatch h⟩
  | hstr s1 =>
    intro b _ _
    cases b with
    | vstr s2 =>
      rw [show deepEqual (.vstr s1) (.vstr s2) = (s1 == s2) from by
        simp [deepEqual], beq_iff_eq]
      constructor
      · rintro rfl
        exact SpecEqual.vstr s1
      · rintro h
        cases h
        rfl
    | vnull =>
      exact ⟨fun h => by simp [deepEqual] at h, fun h => nomatch h⟩
    | vbool b2 =>
      exact ⟨fun h => by simp [deepEqual] at h, fun h => nomatch h⟩
    | vnum q2 =>
      exact ⟨fun h => by simp [deepEqual] at h, fun h => nomatch h⟩
    | varr ys =>
      exact ⟨fun h => by simp [deepEqual] at h, fun h => nomatch h⟩
    | vobj ys =>
      exact ⟨fun h => by simp [deepEqual] at h, fun h => nomatch h⟩
  | harr elems ihElems =>
    intro b hwa hwb
    cases b with
    | varr ys =>
      have hwx : ∀ v ∈ elems, WF v := by
        cases hwa with | varr h => exact h
      have hwy : ∀ w ∈ ys, WF w := by
        cases hwb with | varr h => exact h
      rw [show deepEqual (.varr elems) (.varr ys) = deepEqualList elems ys
        from by simp [deepEqual], deepEqualList_iff,
        forall₂_deepEqual_iff_specEqual elems ys ihElems hwx hwy]
      constructor
      · exact fun h => SpecEqual.varr h
      · rintro h
        cases h with | varr h2 => exact h2
    | vnull =>
      exact ⟨fun h => by simp [deepEqual] at h, fun h => nomatch h⟩
    | vbool b2 =>
      exact ⟨fun h => by simp [deepEqual] at h, fun h => nomatch h⟩
    | vnum q2 =>
      exact ⟨fun h => by simp [deepEqual] at h, fun h => nomatch h⟩
    | vstr s2 =>
      exact ⟨fun h => by simp [deepEqual] at h, fun h => nomatch h⟩
    | vobj ys =>
      exact ⟨fun h => by simp [deepEqual] at h, fun h => nomatch h⟩
  | hobj fields ihFields =>
    intro b hwa hwb
    cases b with
    | vobj ys =>
      have hndx : (fields.map Prod.fst).Nodup := by
        cases hwa with | vobj h1 h2 => exact h1
      have hwx : ∀ q ∈ fields, WF q.2 := by
        cases hwa with | vobj h1 h2 => exact h2
      have hndy : (ys.map Prod.fst).Nodup := by
        cases hwb with | vobj h1 h2 => exact h1
      have hwy : ∀ q ∈ ys, WF q.2 := by
        cases hwb with | vobj h1 h2 => exact h2
      rw [show deepEqual (.vobj fields) (.vobj ys) =
          (fields.length == ys.length && deepEqualFields fields ys)
        from by simp [deepEqual], Bool.and_eq_true, beq_iff_eq]
      constructor
      · rintro ⟨hlen, hfields⟩
        rw [deepEqualFields_iff] at hfields
        have hlk : ∀ k v, lookupField k fields = some v →
            ∃ w, lookupField k ys = some w ∧ deepEqual v w = true := by
          intro k v hk
          have hq := hfields (k, v) (lookupField_mem hk)
          rw [lookupDeepEqual_eq] at hq
          rcases hl : lookupField k ys with _ | w
          · rw [hl] at hq
            cases hq
          · rw [hl] at hq
            exact ⟨w, rfl, hq⟩
        have hsub : fields.map Prod.fst ⊆ ys.map Prod.fst := by
          intro k hkmem
          rcases hl : lookupField k fields with _ | v
          · exact absurd hkmem (lookupField_eq_none.mp hl)
          · rcases hlk k v hl with ⟨w, hw, -⟩
            exact lookupField_isSome_iff.mp (by simp [hw])
        have hperm : (fields.map Prod.fst).Perm (ys.map Prod.fst) :=
          (List.subperm_of_subset hndx hsub).perm_of_length_le
            (by simp [hlen])
        refine SpecEqual.vobj ?_ ?_
        · intro k
          rw [lookupField_isSome_iff, lookupField_isSome_iff]
          exact ⟨fun h => hperm.subset h, fun h => hperm.symm.subset h⟩
        · intro k v w hkv hkw
          rcases hlk k v hkv with ⟨w2, hw2, hde⟩
          rw [hkw] at hw2
          injection hw2 with hw3
          subst hw3
          exact (ihFields (k, v) (lookupField_mem hkv) w
            (hwx _ (lookupField_mem hkv))
            (hwy _ (lookupField_mem hkw))).mp hde
      · rintro hspec
        cases hspec with
        | vobj hiff hvals =>
          have hmemiff : ∀ k,
              k ∈ fields.map Prod.fst ↔ k ∈ ys.map Prod.fst := by
            intro k
            rw [← lookupField_isSome_iff, ← lookupField_isSome_iff]
            exact hiff k
          have hperm : (fields.map Prod.fst).Perm (ys.map Prod.fst) :=
            (List.perm_ext_iff_of_nodup hndx hndy).mpr hmemiff
          have hlen : fields.length = ys.length := by
            have h4 := hperm.length_eq
            simpa using h4
          refine ⟨hlen, ?_⟩
          rw [deepEqualFields_iff]
          intro q hq
          rw [lookupDeepEqual_eq]
          have hkq : lookupField q.1 fields = some q.2 :=
            lookupField_of_nodup_mem hndx hq
          have hsome : (lookupField q.1 ys).isSome = true :=
            (hiff q.1).mp (by simp [hkq])
          rcases hl : lookupField q.1 ys with _ | w
          · rw [hl] at hsome
            simp at hsome
          · exact (ihFields q hq w (hwx q hq)
              (hwy _ (lookupField_mem hl))).mpr (hvals q.1 q.2 w hkq hl)
    | vnull =>
      exact ⟨fun h => by simp [deepEqual] at h, fun h => nomatch h⟩
    | vbool b2 =>
      exact ⟨fun h => by simp [deepEqual] at h, fun h => nomatch h⟩
    | vnum q2 =>
      exact ⟨fun h => by simp [deepEqual] at h, fun h => nomatch h⟩
    | vstr s2 =>
      exact ⟨fun h => by simp [deepEqual] at h, fun h => nomatch h⟩
    | varr ys =>
      exact ⟨fun h => by simp [deepEqual] at h, fun h => nomatch h⟩

/-- Witness for C8: two objects holding the same fields in different
insertion order are deeply equal. -/
theorem C8_witness_reordered_objects :
    SpecEqual (.vobj [("a", Value.vnum 1), ("b", Value.vnum 2)])
      (.vobj [("b", Value.vnum 2), ("a", Value.vnum 1)]) := by
  have wfa : WF (.vobj [("a", Value.vnum 1), ("b", Value.vnum 2)]) := by
    refine WF.vobj (by decide) ?_
    intro q hq
    rcases List.mem_cons.mp hq with rfl | hq2
    · exact WF.vnum 1
    · rcases List.mem_cons.mp hq2 with rfl | hq3
      · exact WF.vnum 2
      · cases hq3
  have wfb : WF (.vobj [("b", Value.vnum 2), ("a", Value.vnum 1)]) := by
    refine WF.vobj (by decide) ?_
    intro q hq
    rcases List.mem_cons.mp hq with rfl | hq2
    · exact WF.vnum 2
    · rcases List.mem_cons.mp hq2 with rfl | hq3
      · exact WF.vnum 1
      · cases hq3
  exact (C8_deepEqual_iff_specEqual _ _ wfa wfb).mp
    (by simp [deepEqual, deepEqualFields, lookupDeepEqual])

/-- Claim C1, counterexample: the key "a" is present in both documents with
values that are not deeply equal (a JSON null versus a string), so the claim
demands exactly one Change for "a" with both `oldValue = previous[a]` and
`newValue = current[a]` present; but the Change the code produces carries
`previous[a]` as the Go nil interface, i.e. an absent `oldValue`, so no
Change with both sides present exists. -/
theorem C1_counterexample_null_old_value :
    lookupField "a" [("a", Value.vnull)] = some .vnull ∧
    lookupField "a" [("a", Value.vstr "x")] = some (.vstr "x") ∧
    deepEqual .vnull (.vstr "x") = false ∧
    DetectChanges (some [("a", Value.vnull)]) [("a", Value.vstr "x")] =
      [{ field := "a", oldValue := .vnull, newValue := .vstr "x" }] ∧
    ¬ ∃ ch ∈ DetectChanges (some [("a", Value.vnull)])
        [("a", Value.vstr "x")],
      ch.field = "a" ∧ ch.oldValue = .vnull ∧ ch.newValue = .vstr "x" ∧
        ch.oldValue.isNull = false ∧ ch.newValue.isNull = false := by
  have hd : DetectChanges (some [("a", Value.vnull)])
      [("a", Value.vstr "x")] =
      [{ field := "a", oldValue := .vnull, newValue := .vstr "x" }] := by
    simp [DetectChanges, detectNewAndChanged, detectRemoved, lookupField,
      deepEqual]
  refine ⟨rfl, rfl, by simp [deepEqual], hd, ?_⟩
  rintro ⟨ch, hmem, -, hold, -, hnull, -⟩
  rw [hd] at hmem
  rcases List.mem_singleton.mp hmem with rfl
  rw [hold] at hnull
  simp [Value.isNull] at hnull

/-- Claim C1 as amended: restricted to documents none of whose field values
is JSON null (so that the Go nil interface unambiguously means "absent"),
`DetectChanges` on a present previous snapshot reports, per key: exactly one
addition Change (oldValue absent, newValue = current[k]) for keys only in
`current`; exactly one modification Change carrying both stored values, both
present, for keys in both with deeply different values; no Change for keys
in both with deeply equal values; and exactly one removal Change (newValue
absent, oldValue = previous[k]) for keys only in `previous`.  The NodupKeys
hypotheses record that Go maps hold each key at most once. -/
theorem C1_amended_detect_changes_clauses :
    ∀ p c : Doc, NodupKeys p → NodupKeys c → NullFree p → NullFree c →
      (∀ k v, lookupField k c = some v → lookupField k p = none →
        (DetectChanges (some p) c).filter (fun ch => ch.field == k) =
          [{ field := k, oldValue := .vnull, newValue := v }]) ∧
      (∀ k o v, lookupField k p = some o → lookupField k c = some v →
        deepEqual o v = false →
        (DetectChanges (some p) c).filter (fun ch => ch.field == k) =
          [{ field := k, oldValue := o, newValue := v }] ∧
          o.isNull = false ∧ v.isNull = false) ∧
      (∀ k o v, lookupField k p = some o → lookupField k c = some v →
        deepEqual o v = true →
        (DetectChanges (some p) c).filter (fun ch => ch.field == k) =
          []) ∧
      (∀ k o, lookupField k p = some o → lookupField k c = none →
        (DetectChanges (some p) c).filter (fun ch => ch.field == k) =
          [{ field := k, oldValue := o, newValue := .vnull }]) := by
  intro p c hp hc hnp hnc
  have hsplit : ∀ k, (DetectChanges (some p) c).filter
      (fun ch => ch.field == k) =
      (detectNewAndChanged p c).filter (fun ch => ch.field == k) ++
        (detectRemoved c p).filter (fun ch => ch.field == k) := by
    intro k
    rw [DetectChanges, List.filter_append]
  refine ⟨?_, ?_, ?_, ?_⟩
  · intro k v hkc hkp
    rw [hsplit, detectNewAndChanged_filter p hc k,
      detectRemoved_filter c hp k, hkc, hkp]
    simp
  · intro k o v hkp hkc hde
    refine ⟨?_, hnp _ (lookupField_mem hkp), hnc _ (lookupField_mem hkc)⟩
    rw [hsplit, detectNewAndChanged_filter p hc k,
      detectRemoved_filter c hp k, hkc, hkp]
    simp [hde]
  · intro k o v hkp hkc hde
    rw [hsplit, detectNewAndChanged_filter p hc k,
      detectRemoved_filter c hp k, hkc, hkp]
    simp [hde]
  · intro k o hkp hkc
    rw [hsplit, detectNewAndChanged_filter p hc k,
      detectRemoved_filter c hp k, hkc, hkp]
    simp

/-- Witness for the amended C1 at a concrete pair of documents exercising
the modification clause. -/
theorem C1_amended_witness :
    (DetectChanges (some [("status", Value.vstr "Received")])
        [("status", Value.vstr "Approved")]).filter
        (fun ch => ch.field == "status") =
      [{ field := "status", oldValue := .vstr "Received",
         newValue := .vstr "Approved" }] :=
  ((C1_amended_detect_changes_clauses
      [("status", Value.vstr "Received")] [("status", Value.vstr "Approved")]
      (by decide) (by decide) (by decide) (by decide)).2.1
    "status" (.vstr "Received") (.vstr "Approved") rfl rfl
    (by simp [deepEqual])).1

/-- Claim C5, counterexample: a field added with a JSON null value produces
a Change whose oldValue and newValue are both the Go nil interface — both
sides absent — violating "at least one of oldValue/newValue is present". -/
theorem C5_counterexample_null_addition :
    DetectChanges (some []) [("a", Value.vnull)] =
      [{ field := "a", oldValue := .vnull, newValue := .vnull }] ∧
    (Change.oldValue
        { field := "a", oldValue := .vnull, newValue := .vnull }).isNull =
      true ∧
    (Change.newValue
        { field := "a", oldValue := .vnull, newValue := .vnull }).isNull =
      true :=
  ⟨rfl, rfl, rfl⟩

/-- Claim C5 as amended: when no field value of either document is JSON
null, every Change produced has at least one side present; and for all
documents whatsoever, no Change ever carries two present (non-nil) deeply
equal values. -/
theorem C5_amended_change_invariant :
    ∀ p c : Doc,
      (NullFree p → NullFree c →
        ∀ ch ∈ DetectChanges (some p) c,
          ch.oldValue.isNull = false ∨ ch.newValue.isNull = false) ∧
      (∀ ch ∈ DetectChanges (some p) c,
        ch.oldValue.isNull = false → ch.newValue.isNull = false →
          deepEqual ch.oldValue ch.newValue = false) := by
  intro p c
  have hmem : ∀ ch ∈ DetectChanges (some p) c,
      (∃ q ∈ c, newChangeFun p q = some ch) ∨
        (∃ q ∈ p, removedChangeFun c q = some ch) := by
    intro ch hch
    rw [DetectChanges, detectNewAndChanged_eq_filterMap,
      detectRemoved_eq_filterMap, List.mem_append] at hch
    rcases hch with h | h
    · exact Or.inl (List.mem_filterMap.mp h)
    · exact Or.inr (List.mem_filterMap.mp h)
  have hshape : ∀ ch ∈ DetectChanges (some p) c,
      (∃ q ∈ c, lookupField q.1 p = none ∧
        ch = { field := q.1, oldValue := .vnull, newValue := q.2 }) ∨
      (∃ q ∈ c, ∃ o, lookupField q.1 p = some o ∧
        deepEqual o q.2 = false ∧
        ch = { field := q.1, oldValue := o, newValue := q.2 }) ∨
      (∃ q ∈ p, lookupField q.1 c = none ∧
        ch = { field := q.1, oldValue := q.2, newValue := .vnull }) := by
    intro ch hch
    rcases hmem ch hch with ⟨q, hq, hf⟩ | ⟨q, hq, hf⟩
    · rcases hl : lookupField q.1 p with _ | o
      · rw [newChangeFun_eq_none_lookup hl] at hf
        exact Or.inl ⟨q, hq, hl, (Option.some_injective _ hf).symm⟩
      · rw [newChangeFun_eq_some_lookup hl] at hf
        rcases hde : deepEqual o q.2 with _ | _
        · rw [hde] at hf
          simp only [Bool.false_eq_true, if_false, Option.some.injEq] at hf
          exact Or.inr (Or.inl ⟨q, hq, o, hl, hde, hf.symm⟩)
        · rw [hde] at hf
          simp at hf
    · rcases hl : lookupField q.1 c with _ | o
      · rw [removedChangeFun_eq_none_lookup hl] at hf
        exact Or.inr (Or.inr ⟨q, hq, hl, (Option.some_injective _ hf).symm⟩)
      · rw [removedChangeFun_eq_some_lookup hl] at hf
        cases hf
  constructor
  · intro hnp hnc ch hch
    rcases hshape ch hch with ⟨q, hq, -, rfl⟩ | ⟨q, hq, o, -, -, rfl⟩ |
      ⟨q, hq, -, rfl⟩
    · exact Or.inr (hnc q hq)
    · exact Or.inr (hnc q hq)
    · exact Or.inl (hnp q hq)
  · intro ch hch hop hnp2
    rcases hshape ch hch with ⟨q, hq, -, rfl⟩ | ⟨q, hq, o, -, hde, rfl⟩ |
      ⟨q, hq, -, rfl⟩
    · simp [Value.isNull] at hop
    · exact hde
    · simp [Value.isNull] at hnp2

/-- Witness for the amended C5 at a concrete modification. -/
theorem C5_amended_witness :
    (Change.oldValue
        { field := "status", oldValue := Value.vstr "Received",
          newValue := Value.vstr "Approved" }).isNull = false ∨
    (Change.newValue
        { field := "status", oldValue := Value.vstr "Received",
          newValue := Value.vstr "Approved" }).isNull = false :=
  (C5_amended_change_invariant [("status", Value.vstr "Received")]
      [("status", Value.vstr "Approved")]).1 (by decide) (by decide)
    { field := "status", oldValue := Value.vstr "Received",
      newValue := Value.vstr "Approved" }
    (by simp [DetectChanges, detectNewAndChanged, detectRemoved,
      lookupField, deepEqual])

/-- Claim C9, counterexample: the two current-document lists hold exactly
the same key-value pairs — they are the same Go map, whose range order is
randomized — yet `DetectChanges` returns differently ordered lists, so the
output is not a function of the map-equal inputs. -/
theorem C9_counterexample_order_depends_on_iteration :
    NodupKeys [("a", Value.vnum 1), ("b", Value.vnum 2)] ∧
    NodupKeys [("b", Value.vnum 2), ("a", Value.vnum 1)] ∧
    [("a", Value.vnum 1), ("b", Value.vnum 2)].Perm
      [("b", Value.vnum 2), ("a", Value.vnum 1)] ∧
    DetectChanges (some []) [("a", Value.vnum 1), ("b", Value.vnum 2)] ≠
      DetectChanges (some []) [("b", Value.vnum 2), ("a", Value.vnum 1)] := by
  refine ⟨by decide, by decide, List.Perm.swap _ _ _, ?_⟩
  intro h
  have h2 := congrArg (List.map Change.field) h
  simp [DetectChanges, detectNewAndChanged, detectRemoved,
    lookupField] at h2

/-- Claim C9 as amended: the ChangeSet is a function of the iteration
orders — its keys are the added/modified keys of `current` in `current`'s
iteration order followed by the removed keys of `previous` in `previous`'s
iteration order — and for map-equal inputs (permutations with distinct
keys) the two outputs agree up to permutation; the exact order, however,
follows Go's randomized map iteration order and is not reproducible across
runs on equal maps. -/
theorem C9_amended_order_structure_and_perm :
    ∀ p c p2 c2 : Doc,
      ((DetectChanges (some p) c).map Change.field =
        (c.filter fun q =>
          match lookupField q.1 p with
          | none => true
          | some o => !deepEqual o q.2).map Prod.fst ++
        (p.filter fun q => (lookupField q.1 c).isNone).map Prod.fst) ∧
      (NodupKeys p → NodupKeys c → p.Perm p2 → c.Perm c2 →
        (DetectChanges (some p) c).Perm (DetectChanges (some p2) c2)) := by
  intro p c p2 c2
  constructor
  · rw [DetectChanges, List.map_append, detectNewAndChanged_map_field,
      detectRemoved_map_field]
  · intro hp hc hpp hcc
    rw [DetectChanges, DetectChanges, detectNewAndChanged_eq_filterMap,
      detectNewAndChanged_eq_filterMap, detectRemoved_eq_filterMap,
      detectRemoved_eq_filterMap]
    have hnew : c.filterMap (newChangeFun p) =
        c.filterMap (newChangeFun p2) := by
      apply List.filterMap_congr
      intro q hq
      unfold newChangeFun
      rw [lookupField_perm hp hpp]
    have hrem : ∀ q, removedChangeFun c q = removedChangeFun c2 q := by
      intro q
      unfold removedChangeFun
      rw [lookupField_perm hc hcc]
    refine List.Perm.append ?_ ?_
    · rw [hnew]
      exact hcc.filterMap (newChangeFun p2)
    · have : p.filterMap (removedChangeFun c) =
          p.filterMap (removedChangeFun c2) :=
        List.filterMap_congr (fun q _ => hrem q)
      rw [this]
      exact hpp.filterMap (removedChangeFun c2)

/-- Witness for the amended C9: permutation-equal concrete inputs yield
permutation-equal change lists. -/
theorem C9_amended_witness :
    (DetectChanges (some []) [("a", Value.vnum 1), ("b", Value.vnum 2)]).Perm
      (DetectChanges (some [])
        [("b", Value.vnum 2), ("a", Value.vnum 1)]) :=
  (C9_amended_order_structure_and_perm [] [("a", Value.vnum 1),
      ("b", Value.vnum 2)] [] [("b", Value.vnum 2), ("a", Value.vnum 1)]).2
    (by decide) (by decide) (List.Perm.refl []) (List.Perm.swap _ _ _)

/-- Claim C10: an empty-but-present previous map is treated as a genuine
prior snapshot, not as a first observation: for a non-empty current
document, `DetectChanges` against the empty map reports every field of the
document as exactly one addition (oldValue absent, newValue the document's
value), while only the nil previous map produces the empty first-run
ChangeSet. -/
theorem C10_empty_previous_differs_from_absent :
    ∀ d : Doc, NodupKeys d → d ≠ [] →
      (∀ k v, lookupField k d = some v →
        (DetectChanges (some []) d).filter (fun ch => ch.field == k) =
          [{ field := k, oldValue := .vnull, newValue := v }]) ∧
      DetectChanges (some []) d =
        d.map (fun q =>
          ({ field := q.1, oldValue := .vnull, newValue := q.2 } : Change)) ∧
      DetectChanges none d = [] ∧
      DetectChanges (some []) d ≠ [] := by
  intro d hnd hne
  refine ⟨?_, detectChanges_empty_prev d, rfl, ?_⟩
  · intro k v hk
    have h1 : lookupField k ([] : Doc) = none := rfl
    rw [DetectChanges, List.filter_append,
      detectNewAndChanged_filter [] hnd k,
      detectRemoved_filter d (by decide) k, hk, h1]
    simp
  · rw [detectChanges_empty_prev d]
    intro h
    exact hne (List.map_eq_nil_iff.mp h)

/-- Witness for C10 at a concrete one-field document. -/
theorem C10_witness :
    DetectChanges (some []) [("status", Value.vstr "Received")] =
      [{ field := "status", oldValue := .vnull,
         newValue := Value.vstr "Received" }] ∧
    DetectChanges none [("status", Value.vstr "Received")] = [] := by
  have h := C10_empty_previous_differs_from_absent
    [("status", Value.vstr "Received")] (by decide) (by simp)
  exact ⟨h.2.1, h.2.2.1⟩

end CaseNotifier
